import Mathlib

set_option maxRecDepth 2000

/-!
Verification of the cache-mediated file-operation layer of a FUSE-style
virtual filesystem: the LFU cache engine (`fuse_fs/cache/lfu_cache.py`),
the operation dispatcher (`fuse_fs/core/filesystem.py`) and the crypto
filter (`fuse_fs/utils/crypto.py`).

Python dictionaries are modelled as insertion-ordered association lists:
assigning an existing key updates it in place, assigning a fresh key
appends at the end, and deletion removes the key — exactly the ordering
semantics the eviction tie-break (`min_freq_files[0]`) depends on.
Bytes are modelled as `List Nat`, sizes and counters as `Int`/`Nat`.
-/

namespace FuseFS

/-- Lookup in an association list: first pair whose key matches. -/
def alookup (k : String) : List (String × α) → Option α
  | [] => none
  | pr :: l => if pr.1 = k then some pr.2 else alookup k l

/-- Python `d[k] = v`: update an existing key in place, else append. -/
def aset (k : String) (v : α) : List (String × α) → List (String × α)
  | [] => [(k, v)]
  | pr :: l => if pr.1 = k then (k, v) :: l else pr :: aset k v l

/-- Python `del d[k]`: remove the key from the list. -/
def adel (k : String) : List (String × α) → List (String × α)
  | [] => []
  | pr :: l => if pr.1 = k then adel k l else pr :: adel k l

/-- The keys of an association list, in order. -/
def keys (l : List (String × α)) : List String :=
  l.map Prod.fst

/-- Python `s.startswith(pre)`, modelled on the character list. -/
def str_startswith (s pre : String) : Bool :=
  decide (s.data.take pre.data.length = pre.data)

theorem alookup_aset_self (k : String) (v : α) (l : List (String × α)) :
    alookup k (aset k v l) = some v := by
  induction l with
  | nil => simp [aset, alookup]
  | cons pr l ih =>
    rcases eq_or_ne pr.1 k with hpk | hpk
    · simp [aset, hpk, alookup]
    · simp [aset, hpk, alookup, ih]

theorem alookup_aset_ne (k k' : String) (v : α) (l : List (String × α))
    (h : k' ≠ k) : alookup k' (aset k v l) = alookup k' l := by
  induction l with
  | nil => simp [aset, alookup, Ne.symm h]
  | cons pr l ih =>
    rcases eq_or_ne pr.1 k with hpk | hpk
    · subst hpk
      simp [aset, alookup, Ne.symm h]
    · simp [aset, hpk, alookup, ih]

theorem alookup_adel_self (k : String) (l : List (String × α)) :
    alookup k (adel k l) = none := by
  induction l with
  | nil => simp [adel, alookup]
  | cons pr l ih =>
    rcases eq_or_ne pr.1 k with hpk | hpk
    · simpa [adel, hpk] using ih
    · simpa [adel, hpk, alookup] using ih

theorem alookup_adel_ne (k k' : String) (l : List (String × α))
    (h : k' ≠ k) : alookup k' (adel k l) = alookup k' l := by
  induction l with
  | nil => simp [adel, alookup]
  | cons pr l ih =>
    rcases eq_or_ne pr.1 k with hpk | hpk
    · subst hpk
      simpa [adel, alookup, Ne.symm h] using ih
    · simp [adel, hpk, alookup, ih]

theorem alookup_eq_none_of_not_mem (k : String) (l : List (String × α))
    (h : k ∉ keys l) : alookup k l = none := by
  induction l with
  | nil => rfl
  | cons pr l ih =>
    simp only [keys, List.map_cons, List.mem_cons] at h
    push_neg at h
    simp [alookup, Ne.symm h.1, ih (by simpa [keys] using h.2)]

theorem mem_keys_of_alookup (k : String) (v : α) (l : List (String × α))
    (h : alookup k l = some v) : k ∈ keys l := by
  by_contra hk
  rw [alookup_eq_none_of_not_mem k l hk] at h
  exact Option.noConfusion h

theorem aset_of_not_mem (k : String) (v : α) (l : List (String × α))
    (h : k ∉ keys l) : aset k v l = l ++ [(k, v)] := by
  induction l with
  | nil => rfl
  | cons pr l ih =>
    simp only [keys, List.map_cons, List.mem_cons] at h
    push_neg at h
    simp [aset, Ne.symm h.1, ih (by simpa [keys] using h.2)]

theorem adel_of_not_mem (k : String) (l : List (String × α))
    (h : k ∉ keys l) : adel k l = l := by
  induction l with
  | nil => rfl
  | cons pr l ih =>
    simp only [keys, List.map_cons, List.mem_cons] at h
    push_neg at h
    simp [adel, Ne.symm h.1, ih (by simpa [keys] using h.2)]

theorem adel_length_le (k : String) (l : List (String × α)) :
    (adel k l).length ≤ l.length := by
  induction l with
  | nil => simp [adel]
  | cons pr l ih =>
    rcases eq_or_ne pr.1 k with hpk | hpk
    · simp only [adel, if_pos hpk, List.length_cons]
      omega
    · simp only [adel, if_neg hpk, List.length_cons]
      omega

theorem adel_length_lt (k : String) (l : List (String × α))
    (h : k ∈ keys l) : (adel k l).length < l.length := by
  induction l with
  | nil => simp [keys] at h
  | cons pr l ih =>
    rcases eq_or_ne pr.1 k with hpk | hpk
    · simp only [adel, if_pos hpk, List.length_cons]
      have := adel_length_le k l
      omega
    · simp only [keys, List.map_cons, List.mem_cons] at h
      rcases h with h | h
      · exact absurd h.symm hpk
      · have := ih (by simpa [keys] using h)
        simp only [adel, if_neg hpk, List.length_cons]
        omega

theorem keys_cons (pr : String × α) (l : List (String × α)) :
    keys (pr :: l) = pr.1 :: keys l := rfl

theorem aset_cons_self (pr : String × α) (v : α) (l : List (String × α)) :
    aset pr.1 v (pr :: l) = (pr.1, v) :: l := by
  simp [aset]

theorem adel_cons_self (pr : String × α) (l : List (String × α)) :
    adel pr.1 (pr :: l) = adel pr.1 l := by
  simp [adel]

theorem mem_keys_aset (a k : String) (v : α) (l : List (String × α))
    (h : a ∈ keys (aset k v l)) : a = k ∨ a ∈ keys l := by
  induction l with
  | nil =>
    rcases (List.mem_cons.mp h) with h | h
    · exact Or.inl h
    · exact absurd h (List.not_mem_nil a)
  | cons pr l ih =>
    rcases eq_or_ne pr.1 k with hpk | hpk
    · subst hpk
      rw [aset_cons_self, keys_cons] at h
      rcases List.mem_cons.mp h with h | h
      · exact Or.inl h
      · exact Or.inr (by rw [keys_cons]; exact List.mem_cons_of_mem _ h)
    · rw [show aset k v (pr :: l) = pr :: aset k v l from by simp [aset, hpk],
        keys_cons] at h
      rcases List.mem_cons.mp h with h | h
      · exact Or.inr (by rw [keys_cons]; exact List.mem_cons.mpr (Or.inl h))
      · rcases ih h with h' | h'
        · exact Or.inl h'
        · exact Or.inr (by rw [keys_cons]; exact List.mem_cons_of_mem _ h')

theorem mem_keys_adel (a k : String) (l : List (String × α))
    (h : a ∈ keys (adel k l)) : a ∈ keys l := by
  induction l with
  | nil => exact absurd h (List.not_mem_nil a)
  | cons pr l ih =>
    rcases eq_or_ne pr.1 k with hpk | hpk
    · rw [show adel k (pr :: l) = adel k l from by simp [adel, hpk]] at h
      rw [keys_cons]
      exact List.mem_cons_of_mem _ (ih h)
    · rw [show adel k (pr :: l) = pr :: adel k l from by simp [adel, hpk],
        keys_cons] at h
      rw [keys_cons]
      rcases List.mem_cons.mp h with h | h
      · exact List.mem_cons.mpr (Or.inl h)
      · exact List.mem_cons_of_mem _ (ih h)

theorem keys_nodup_aset (k : String) (v : α) (l : List (String × α))
    (h : (keys l).Nodup) : (keys (aset k v l)).Nodup := by
  induction l with
  | nil => simp [aset, keys]
  | cons pr l ih =>
    rw [keys_cons, List.nodup_cons] at h
    rcases eq_or_ne pr.1 k with hpk | hpk
    · subst hpk
      rw [aset_cons_self, keys_cons, List.nodup_cons]
      exact h
    · rw [show aset k v (pr :: l) = pr :: aset k v l from by simp [aset, hpk],
        keys_cons, List.nodup_cons]
      refine ⟨?_, ih h.2⟩
      intro hmem
      rcases mem_keys_aset pr.1 k v l hmem with h' | h'
      · exact hpk h'
      · exact h.1 h'

theorem keys_nodup_adel (k : String) (l : List (String × α))
    (h : (keys l).Nodup) : (keys (adel k l)).Nodup := by
  induction l with
  | nil => simp [adel, keys]
  | cons pr l ih =>
    rw [keys_cons, List.nodup_cons] at h
    rcases eq_or_ne pr.1 k with hpk | hpk
    · rw [show adel k (pr :: l) = adel k l from by simp [adel, hpk]]
      exact ih h.2
    · rw [show adel k (pr :: l) = pr :: adel k l from by simp [adel, hpk],
        keys_cons, List.nodup_cons]
      exact ⟨fun hmem => h.1 (mem_keys_adel pr.1 k l hmem), ih h.2⟩

theorem alookup_mem (k : String) (v : α) (l : List (String × α))
    (h : alookup k l = some v) : (k, v) ∈ l := by
  induction l with
  | nil => exact absurd h (by simp [alookup])
  | cons pr l ih =>
    by_cases hpk : pr.1 = k
    · subst hpk
      rw [show alookup pr.1 (pr :: l) = some pr.2 from by simp [alookup]] at h
      have hv : pr.2 = v := Option.some.inj h
      subst hv
      simp
    · simp only [alookup, if_neg hpk] at h
      exact List.mem_cons_of_mem _ (ih h)

theorem alookup_isSome_of_mem (k : String) (l : List (String × α))
    (h : k ∈ keys l) : (alookup k l).isSome := by
  induction l with
  | nil => exact absurd h (List.not_mem_nil k)
  | cons pr l ih =>
    by_cases hpk : pr.1 = k
    · simp [alookup, hpk]
    · rw [keys_cons] at h
      rcases List.mem_cons.mp h with h | h
      · exact absurd h.symm hpk
      · simpa [alookup, hpk] using ih h

theorem not_mem_of_alookup_none (k : String) (l : List (String × α))
    (h : alookup k l = none) : k ∉ keys l := by
  intro hk
  have := alookup_isSome_of_mem k l hk
  rw [h] at this
  exact Bool.noConfusion this

theorem mem_keys_adel_ne (a k : String) (l : List (String × α))
    (h : a ∈ keys (adel k l)) : a ≠ k := by
  induction l with
  | nil => exact absurd h (List.not_mem_nil a)
  | cons pr l ih =>
    rcases eq_or_ne pr.1 k with hpk | hpk
    · exact ih (by rwa [show adel k (pr :: l) = adel k l from by simp [adel, hpk]] at h)
    · rw [show adel k (pr :: l) = pr :: adel k l from by simp [adel, hpk], keys_cons] at h
      rcases List.mem_cons.mp h with h | h
      · exact h ▸ hpk
      · exact ih h

theorem alookup_adel_none (k k' : String) (l : List (String × α))
    (h : alookup k' l = none) : alookup k' (adel k l) = none := by
  rcases eq_or_ne k' k with he | he
  · exact he ▸ alookup_adel_self k l
  · rw [alookup_adel_ne k k' l he]
    exact h

theorem adel_length_nodup (k : String) (l : List (String × α))
    (hnd : (keys l).Nodup) (h : k ∈ keys l) :
    (adel k l).length + 1 = l.length := by
  induction l with
  | nil => exact absurd h (List.not_mem_nil k)
  | cons pr l ih =>
    rw [keys_cons, List.nodup_cons] at hnd
    rcases eq_or_ne pr.1 k with hpk | hpk
    · subst hpk
      rw [adel_cons_self, adel_of_not_mem pr.1 l hnd.1]
      simp
    · rw [keys_cons] at h
      rcases List.mem_cons.mp h with h | h
      · exact absurd h.symm hpk
      · rw [show adel k (pr :: l) = pr :: adel k l from by simp [adel, hpk]]
        simp only [List.length_cons]
        rw [← ih hnd.2 h]

theorem values_nodup_inj (l : List (String × α)) (q1 q2 : String) (v : α)
    (hnd : (l.map Prod.snd).Nodup)
    (h1 : alookup q1 l = some v) (h2 : alookup q2 l = some v) : q1 = q2 := by
  have m1 := alookup_mem q1 v l h1
  have m2 := alookup_mem q2 v l h2
  have := List.inj_on_of_nodup_map hnd m1 m2 rfl
  exact congrArg Prod.fst this

/-- Removing one key of a key-nodup association list splits a
key-determined sum. -/
theorem sum_adel (g : String → Int) (k : String) (l : List (String × α))
    (hnd : (keys l).Nodup) (h : k ∈ keys l) :
    (l.map (fun pr => g pr.1)).sum =
      g k + ((adel k l).map (fun pr => g pr.1)).sum := by
  induction l with
  | nil => exact absurd h (List.not_mem_nil k)
  | cons pr l ih =>
    rw [keys_cons, List.nodup_cons] at hnd
    rcases eq_or_ne pr.1 k with hpk | hpk
    · subst hpk
      rw [adel_cons_self, adel_of_not_mem pr.1 l hnd.1]
      simp
    · rw [keys_cons] at h
      rcases List.mem_cons.mp h with h | h
      · exact absurd h.symm hpk
      · rw [show adel k (pr :: l) = pr :: adel k l from by simp [adel, hpk]]
        simp only [List.map_cons, List.sum_cons]
        rw [ih hnd.2 h]
        ring

theorem sum_map_congr (f g : (String × α) → Int) (l : List (String × α))
    (h : ∀ pr ∈ l, f pr = g pr) : (l.map f).sum = (l.map g).sum := by
  rw [List.map_congr_left h]

/-- Python `min` over a nonempty list (0 for the empty list, which the
code guards against). -/
def minList : List Nat → Nat
  | [] => 0
  | [x] => x
  | x :: y :: t => min x (minList (y :: t))

theorem minList_mem : ∀ l : List Nat, l ≠ [] → minList l ∈ l
  | [], h => absurd rfl h
  | [x], _ => by simp [minList]
  | x :: y :: t, _ => by
    rcases min_cases x (minList (y :: t)) with ⟨he, _⟩ | ⟨he, _⟩
    · simp [minList, he]
    · have := minList_mem (y :: t) (by simp)
      simp only [minList, he]
      exact List.mem_cons_of_mem _ this

theorem minList_le : ∀ l : List Nat, ∀ x ∈ l, minList l ≤ x
  | [], x, hx => absurd hx (List.not_mem_nil x)
  | [y], x, hx => by
    rcases List.mem_cons.mp hx with h | h
    · simp [minList, h]
    · exact absurd h (List.not_mem_nil x)
  | y :: z :: t, x, hx => by
    rcases List.mem_cons.mp hx with h | h
    · subst h
      simp [minList]
    · have := minList_le (z :: t) x h
      simp only [minList]
      exact le_trans (min_le_right _ _) this

/-- POSIX attribute snapshot captured by `os.lstat`, as copied by the
cache (`st_atime, st_ctime, st_gid, st_mode, st_mtime, st_nlink,
st_size, st_uid`). -/
structure Attr where
  st_atime : Nat
  st_ctime : Nat
  st_gid : Nat
  st_mode : Nat
  st_mtime : Nat
  st_nlink : Nat
  st_size : Nat
  st_uid : Nat
deriving DecidableEq, Repr

/-- A file of the backing store: its content bytes and its `lstat`
metadata. `os.path.getsize` is the content length. -/
structure SrcFile where
  content : List Nat
  attr : Attr
deriving DecidableEq, Repr

/-- State of `LFUCache` (`lfu_cache.py`): the four tracking
dictionaries, the byte counter, and the cache directory `disk`
(cache-file name to content), which the Python code keeps on the real
filesystem. `max_size` is `capacity_bytes`. -/
structure LFU where
  max_size : Nat
  frequency : List (String × Nat)
  cache : List (String × String)
  attrs : List (String × Attr)
  cache_map : List (String × String)
  total_size : Int
  disk : List (String × List Nat)
deriving DecidableEq, Repr

namespace LFU

/-- `_get_cache_path`: the md5-derived cache file name is modelled as an
injective deterministic function of the path (the code relies only on
determinism and collision-freeness of the hash). -/
def get_cache_path (path : String) : String :=
  "cache_" ++ path

theorem get_cache_path_injective (p q : String)
    (h : get_cache_path p = get_cache_path q) : p = q := by
  have : ("cache_" ++ p).data = ("cache_" ++ q).data := congrArg String.data h
  simp only [String.data_append] at this
  exact String.ext (List.append_cancel_left this)

/-- The entry `_evict` selects: the first path whose frequency equals the
minimum frequency (`min_freq_files[0]`, with Python dict insertion
order). -/
def evictChoice (l : List (String × Nat)) : Option (String × Nat) :=
  l.find? (fun pr => pr.2 == minList (l.map Prod.snd))

/-- One iteration of `LFUCache._evict`: remove the chosen entry's cache
file (when present) and its bookkeeping in all four dictionaries. -/
def evictOnce (c : LFU) : LFU :=
  match evictChoice c.frequency with
  | none => c
  | some pr =>
    let ptr := pr.1
    let c1 :=
      match alookup ptr c.cache with
      | some cp =>
        match alookup cp c.disk with
        | some ct =>
          { c with total_size := c.total_size - ct.length, disk := adel cp c.disk }
        | none => c
      | none => c
    let c2 := { c1 with frequency := adel ptr c1.frequency }
    let c3 :=
      match alookup ptr c2.cache with
      | some cf => { c2 with cache := adel ptr c2.cache, cache_map := adel cf c2.cache_map }
      | none => c2
    { c3 with attrs := adel ptr c3.attrs }

/-- The `while self.total_size + file_size > self.max_size and
self.frequency: self._evict()` loop of `add`, run with fuel; since each
`_evict` on a nonempty `frequency` removes one entry, fuel
`c.frequency.length` computes the loop's fixpoint. -/
def evictGo (size : Nat) : Nat → LFU → LFU
  | 0, c => c
  | n + 1, c =>
    if c.total_size + size > c.max_size ∧ c.frequency ≠ [] then
      evictGo size n (evictOnce c)
    else c

def evictLoop (c : LFU) (size : Nat) : LFU :=
  evictGo size c.frequency.length c

/-- `LFUCache.add(path, source_path)`. The size guard
`file_size > self.max_size / 2` (exact float division) is the integer
test `2 * file_size > max_size`. `shutil.copy2` overwrites the cache
file in place; the copy is modelled as always succeeding. -/
def add (c : LFU) (srcfs : List (String × SrcFile)) (path source_path : String) :
    Bool × LFU :=
  match alookup source_path srcfs with
  | none => (false, c)
  | some f =>
    let file_size := f.content.length
    if 2 * file_size > c.max_size then (false, c)
    else
      let c := evictLoop c file_size
      let cache_path := get_cache_path path
      (true,
        { c with
          disk := aset cache_path f.content c.disk
          frequency := aset path 1 c.frequency
          cache := aset path cache_path c.cache
          cache_map := aset cache_path path c.cache_map
          total_size := c.total_size + file_size
          attrs := aset path f.attr c.attrs })

/-- `LFUCache.has`: the path is a key of `self.cache` and its cache file
exists on disk. -/
def has (c : LFU) (path : String) : Bool :=
  match alookup path c.cache with
  | some cp => (alookup cp c.disk).isSome
  | none => false

/-- `LFUCache.read(path, length, offset)`: on a hit, increment the
frequency, then `seek(offset)` and `read(length)` on the cached copy. -/
def read (c : LFU) (path : String) (length offset : Nat) :
    Option (List Nat) × LFU :=
  if has c path then
    let c := { c with
      frequency := aset path ((alookup path c.frequency).getD 0 + 1) c.frequency }
    match alookup path c.cache with
    | some cp =>
      match alookup cp c.disk with
      | some ct => (some ((ct.drop offset).take length), c)
      | none => (none, c)
    | none => (none, c)
  else (none, c)

/-- `LFUCache.invalidate(path)`: no-op unless `has`; otherwise delete the
cache file, subtract its size, and drop the path from all dictionaries. -/
def invalidate (c : LFU) (path : String) : LFU :=
  if has c path then
    match alookup path c.cache with
    | some cache_path =>
      let c1 :=
        match alookup cache_path c.disk with
        | some ct =>
          { c with total_size := c.total_size - ct.length, disk := adel cache_path c.disk }
        | none => c
      let c2 := { c1 with frequency := adel path c1.frequency }
      let c3 :=
        match alookup path c2.cache with
        | some cf => { c2 with cache := adel path c2.cache, cache_map := adel cf c2.cache_map }
        | none => c2
      { c3 with attrs := adel path c3.attrs }
    | none => c
  else c

/-- `LFUCache.get_attr(path)`: decided by membership in `self.attrs`
alone; on a hit increments the frequency and returns the snapshot. -/
def get_attr (c : LFU) (path : String) : Option Attr × LFU :=
  match alookup path c.attrs with
  | some a =>
    (some a,
      { c with
        frequency := aset path ((alookup path c.frequency).getD 0 + 1) c.frequency })
  | none => (none, c)

/-- `LFUCache.clear`. -/
def clear (c : LFU) : LFU :=
  { c with frequency := [], cache := [], cache_map := [], attrs := [],
           total_size := 0, disk := [] }

/-- `LFUCache.__init__` + `_load_existing_cache`: start from a cache
directory listing; every file whose name starts with `cache_` is adopted
with frequency 0, keyed by its own cache-file name, with no attribute
snapshot. -/
def initLFU (max : Nat) (dir : List (String × List Nat)) : LFU :=
  let c0 : LFU :=
    { max_size := max, frequency := [], cache := [], attrs := [],
      cache_map := [], total_size := 0, disk := dir }
  dir.foldl
    (fun c pr =>
      if str_startswith pr.1 "cache_" then
        { c with
          frequency := aset pr.1 0 c.frequency
          cache := aset pr.1 pr.1 c.cache
          cache_map := aset pr.1 pr.1 c.cache_map
          total_size := c.total_size + pr.2.length }
      else c)
    c0

def emptyLFU (max : Nat) : LFU :=
  initLFU max []

/-- Run a sequence of `add` calls, threading the state. -/
def runAdds (c : LFU) (srcfs : List (String × SrcFile)) :
    List (String × String) → LFU
  | [] => c
  | op :: ops => runAdds (add c srcfs op.1 op.2).2 srcfs ops

/-- The boolean results of a sequence of `add` calls. -/
def runAddsOks (c : LFU) (srcfs : List (String × SrcFile)) :
    List (String × String) → List Bool
  | [] => []
  | op :: ops =>
    (add c srcfs op.1 op.2).1 :: runAddsOks (add c srcfs op.1 op.2).2 srcfs ops

/-- The on-disk size of `p`'s cache file (0 when absent). -/
def entrySize (disk : List (String × List Nat)) (p : String) : Int :=
  match alookup (get_cache_path p) disk with
  | some ct => (ct.length : Int)
  | none => 0

/-- Sum of the on-disk sizes of the tracked entries, in `frequency`
order. -/
def liveSum (c : LFU) : Int :=
  (c.frequency.map (fun pr => entrySize c.disk pr.1)).sum

/-- Accounting invariant of a cache state: no duplicate entries,
`total_size` counts exactly the live entries' on-disk bytes and is
within capacity, and every tracked path has its cache file on disk. -/
def WFState (c : LFU) : Prop :=
  (keys c.frequency).Nodup ∧
  c.total_size = liveSum c ∧
  c.total_size ≤ (c.max_size : Int) ∧
  ∀ p ∈ keys c.frequency,
    alookup p c.cache = some (get_cache_path p) ∧
    (alookup (get_cache_path p) c.disk).isSome = true

instance (c : LFU) : Decidable (WFState c) := by
  unfold WFState
  infer_instance

theorem evictChoice_spec (l : List (String × Nat)) (h : l ≠ []) :
    ∃ pr, evictChoice l = some pr ∧ pr ∈ l ∧ ∀ q ∈ l, pr.2 ≤ q.2 := by
  have hm : minList (l.map Prod.snd) ∈ l.map Prod.snd :=
    minList_mem _ (by simpa using h)
  obtain ⟨pr0, hpr0, hpr0e⟩ := List.mem_map.mp hm
  have hsome : (l.find? (fun pr => pr.2 == minList (l.map Prod.snd))).isSome := by
    rw [List.find?_isSome]
    exact ⟨pr0, hpr0, by simpa using hpr0e⟩
  obtain ⟨pr, hpr⟩ := Option.isSome_iff_exists.mp hsome
  refine ⟨pr, hpr, List.mem_of_find?_eq_some hpr, ?_⟩
  intro q hq
  have hpred := List.find?_some hpr
  have he : pr.2 = minList (l.map Prod.snd) := by simpa using hpred
  rw [he]
  exact minList_le _ _ (List.mem_map.mpr ⟨q, hq, rfl⟩)

/-- Full characterization of `_evict` on a state where the chosen entry
is live. -/
theorem evictOnce_spec (c : LFU) (pr : String × Nat) (cp : String) (ct : List Nat)
    (hch : evictChoice c.frequency = some pr)
    (hca : alookup pr.1 c.cache = some cp)
    (hdi : alookup cp c.disk = some ct) :
    evictOnce c =
      { max_size := c.max_size
        frequency := adel pr.1 c.frequency
        cache := adel pr.1 c.cache
        attrs := adel pr.1 c.attrs
        cache_map := adel cp c.cache_map
        total_size := c.total_size - ct.length
        disk := adel cp c.disk } := by
  unfold evictOnce
  rw [hch]
  simp only [hca, hdi]

theorem evictOnce_frequency (c : LFU) :
    (evictOnce c).frequency =
      match evictChoice c.frequency with
      | none => c.frequency
      | some pr => adel pr.1 c.frequency := by
  unfold evictOnce
  rcases hch : evictChoice c.frequency with _ | pr
  · simp
  · simp only
    rcases hca : alookup pr.1 c.cache with _ | cp
    · simp [hca]
    · rcases hdi : alookup cp c.disk with _ | ct
      · simp [hca, hdi]
      · simp [hca, hdi]

theorem evictOnce_max (c : LFU) : (evictOnce c).max_size = c.max_size := by
  unfold evictOnce
  rcases hch : evictChoice c.frequency with _ | pr
  · simp
  · simp only
    rcases hca : alookup pr.1 c.cache with _ | cp
    · simp [hca]
    · rcases hdi : alookup cp c.disk with _ | ct
      · simp [hca, hdi]
      · simp [hca, hdi]

theorem evictOnce_alookup_none (c : LFU) (p : String)
    (h : alookup p c.frequency = none) :
    alookup p (evictOnce c).frequency = none := by
  rw [evictOnce_frequency]
  rcases hch : evictChoice c.frequency with _ | pr
  · exact h
  · exact alookup_adel_none pr.1 p c.frequency h

theorem WFState_evictOnce (c : LFU) (hw : WFState c) (hne : c.frequency ≠ []) :
    WFState (evictOnce c) ∧ (evictOnce c).frequency.length < c.frequency.length := by
  obtain ⟨pr, hch, hmem, _⟩ := evictChoice_spec c.frequency hne
  have hkey : pr.1 ∈ keys c.frequency := List.mem_map.mpr ⟨pr, hmem, rfl⟩
  obtain ⟨hca, hdisome⟩ := hw.2.2.2 pr.1 hkey
  obtain ⟨ct, hdi⟩ := Option.isSome_iff_exists.mp hdisome
  rw [evictOnce_spec c pr _ ct hch hca hdi]
  refine ⟨⟨keys_nodup_adel pr.1 _ hw.1, ?_, ?_, ?_⟩, ?_⟩
  · -- accounting: the removed entry's bytes leave both the counter and the sum
    show c.total_size - (ct.length : Int) =
      ((adel pr.1 c.frequency).map
        (fun q => entrySize (adel (get_cache_path pr.1) c.disk) q.1)).sum
    have hstep : ∀ q ∈ adel pr.1 c.frequency,
        entrySize (adel (get_cache_path pr.1) c.disk) q.1 = entrySize c.disk q.1 := by
      intro q hq
      have hqk : q.1 ∈ keys (adel pr.1 c.frequency) := List.mem_map.mpr ⟨q, hq, rfl⟩
      have hqne : q.1 ≠ pr.1 := mem_keys_adel_ne q.1 pr.1 c.frequency hqk
      have hgne : get_cache_path q.1 ≠ get_cache_path pr.1 := by
        intro he
        exact hqne (get_cache_path_injective _ _ he)
      unfold entrySize
      rw [alookup_adel_ne _ _ _ hgne]
    rw [sum_map_congr _ _ _ hstep]
    have hsplit := sum_adel (entrySize c.disk) pr.1 c.frequency hw.1 hkey
    have hsz : entrySize c.disk pr.1 = (ct.length : Int) := by
      unfold entrySize
      rw [hdi]
    have hacc := hw.2.1
    unfold liveSum at hacc
    rw [hacc, hsplit, hsz]
    ring
  · -- capacity: the counter only decreases
    show c.total_size - (ct.length : Int) ≤ (c.max_size : Int)
    have : (0 : Int) ≤ (ct.length : Int) := Int.ofNat_nonneg _
    have := hw.2.2.1
    omega
  · -- every surviving entry stays live
    intro q hq
    have hqin := mem_keys_adel q pr.1 c.frequency hq
    have hqne : q ≠ pr.1 := mem_keys_adel_ne q pr.1 c.frequency hq
    obtain ⟨hqa, hqd⟩ := hw.2.2.2 q hqin
    have hgne : get_cache_path q ≠ get_cache_path pr.1 := by
      intro he
      exact hqne (get_cache_path_injective _ _ he)
    refine ⟨?_, ?_⟩
    · rw [alookup_adel_ne _ _ _ hqne]
      exact hqa
    · rw [alookup_adel_ne _ _ _ hgne]
      exact hqd
  · exact adel_length_lt pr.1 c.frequency hkey

theorem evictGo_alookup_none (size : Nat) :
    ∀ (n : Nat) (c : LFU) (p : String), alookup p c.frequency = none →
      alookup p (evictGo size n c).frequency = none
  | 0, _, _, h => h
  | n + 1, c, p, h => by
    unfold evictGo
    by_cases hcond : c.total_size + size > (c.max_size : Int) ∧ c.frequency ≠ []
    · rw [if_pos hcond]
      exact evictGo_alookup_none size n (evictOnce c) p (evictOnce_alookup_none c p h)
    · rw [if_neg hcond]
      exact h

theorem evictGo_max (size : Nat) :
    ∀ (n : Nat) (c : LFU), (evictGo size n c).max_size = c.max_size
  | 0, _ => rfl
  | n + 1, c => by
    unfold evictGo
    by_cases hcond : c.total_size + size > (c.max_size : Int) ∧ c.frequency ≠ []
    · rw [if_pos hcond, evictGo_max size n (evictOnce c), evictOnce_max]
    · rw [if_neg hcond]

/-- The eviction loop of `add`: it preserves the invariant and stops
only with capacity satisfied or no entries left. -/
theorem evictGo_spec (size : Nat) :
    ∀ (n : Nat) (c : LFU), c.frequency.length ≤ n → WFState c →
      WFState (evictGo size n c) ∧
      ((evictGo size n c).total_size + size ≤ ((evictGo size n c).max_size : Int) ∨
        (evictGo size n c).frequency = []) := by
  intro n
  induction n with
  | zero =>
    intro c hlen hw
    have hnil : c.frequency = [] := List.length_eq_zero.mp (Nat.le_zero.mp hlen)
    exact ⟨hw, Or.inr hnil⟩
  | succ n ih =>
    intro c hlen hw
    by_cases hcond : c.total_size + size > (c.max_size : Int) ∧ c.frequency ≠ []
    · have hstep := WFState_evictOnce c hw hcond.2
      have hlen' : (evictOnce c).frequency.length ≤ n := by
        have := hstep.2
        omega
      have hr := ih (evictOnce c) hlen' hstep.1
      rw [show evictGo size (n + 1) c =
          (if c.total_size + size > (c.max_size : Int) ∧ c.frequency ≠ [] then
            evictGo size n (evictOnce c)
          else c) from rfl,
        if_pos hcond]
      exact hr
    · rw [show evictGo size (n + 1) c =
          (if c.total_size + size > (c.max_size : Int) ∧ c.frequency ≠ [] then
            evictGo size n (evictOnce c)
          else c) from rfl,
        if_neg hcond]
      refine ⟨hw, ?_⟩
      rcases not_and_or.mp hcond with hA | hB
      · exact Or.inl (by omega)
      · exact Or.inr (not_not.mp hB)

theorem WFState_empty (max : Nat) : WFState (emptyLFU max) := by
  refine ⟨List.nodup_nil, rfl, ?_, ?_⟩
  · show (0 : Int) ≤ (max : Int)
    exact_mod_cast Nat.zero_le max
  · intro p hp
    exact absurd hp (List.not_mem_nil p)

/-- `add` fails with no state change when the source does not exist. -/
theorem add_eq_of_no_source (c : LFU) (srcfs : List (String × SrcFile)) (p sp : String)
    (hsrc : alookup sp srcfs = none) : add c srcfs p sp = (false, c) := by
  unfold add
  rw [hsrc]

/-- `add` fails with no state change when the source file exceeds half
the capacity (`file_size > max_size / 2`, exactly `2 * file_size >
max_size` on integers). -/
theorem add_eq_of_oversized (c : LFU) (srcfs : List (String × SrcFile)) (p sp : String)
    (f : SrcFile) (hsrc : alookup sp srcfs = some f)
    (hbig : 2 * f.content.length > c.max_size) : add c srcfs p sp = (false, c) := by
  unfold add
  rw [hsrc]
  simp [hbig]

/-- The successful branch of `add`: after the eviction loop, the copy is
admitted and all dictionaries are updated. -/
theorem add_eq_ok (c : LFU) (srcfs : List (String × SrcFile)) (p sp : String)
    (f : SrcFile) (hsrc : alookup sp srcfs = some f)
    (hbig : ¬2 * f.content.length > c.max_size) :
    add c srcfs p sp =
      (true,
        { max_size := (evictLoop c f.content.length).max_size
          frequency := aset p 1 (evictLoop c f.content.length).frequency
          cache := aset p (get_cache_path p) (evictLoop c f.content.length).cache
          attrs := aset p f.attr (evictLoop c f.content.length).attrs
          cache_map := aset (get_cache_path p) p (evictLoop c f.content.length).cache_map
          total_size := (evictLoop c f.content.length).total_size + f.content.length
          disk := aset (get_cache_path p) f.content (evictLoop c f.content.length).disk }) := by
  unfold add
  rw [hsrc]
  simp [hbig]

theorem evictLoop_spec (c : LFU) (size : Nat) (hw : WFState c) :
    WFState (evictLoop c size) ∧
    ((evictLoop c size).total_size + size ≤ ((evictLoop c size).max_size : Int) ∨
      (evictLoop c size).frequency = []) :=
  evictGo_spec size c.frequency.length c le_rfl hw

theorem evictLoop_max (c : LFU) (size : Nat) :
    (evictLoop c size).max_size = c.max_size :=
  evictGo_max size c.frequency.length c

theorem evictLoop_alookup_none (c : LFU) (size : Nat) (p : String)
    (h : alookup p c.frequency = none) :
    alookup p (evictLoop c size).frequency = none :=
  evictGo_alookup_none size c.frequency.length c p h

/-- `add` on a path that is not currently tracked preserves the
invariant — in particular it leaves `total_size ≤ capacity`. -/
theorem WFState_add (c : LFU) (srcfs : List (String × SrcFile)) (p sp : String)
    (hw : WFState c) (hfresh : alookup p c.frequency = none) :
    WFState (add c srcfs p sp).2 := by
  rcases hsrc : alookup sp srcfs with _ | f
  · rw [add_eq_of_no_source c srcfs p sp hsrc]
    exact hw
  · by_cases hbig : 2 * f.content.length > c.max_size
    · rw [add_eq_of_oversized c srcfs p sp f hsrc hbig]
      exact hw
    · rw [add_eq_ok c srcfs p sp f hsrc hbig]
      obtain ⟨hw1, hexit⟩ := evictLoop_spec c f.content.length hw
      have hmax1 : (evictLoop c f.content.length).max_size = c.max_size :=
        evictLoop_max c f.content.length
      have hfresh1 : alookup p (evictLoop c f.content.length).frequency = none :=
        evictLoop_alookup_none c f.content.length p hfresh
      set c1 := evictLoop c f.content.length with hc1
      have hpnot : p ∉ keys c1.frequency := not_mem_of_alookup_none _ _ hfresh1
      have happ : aset p 1 c1.frequency = c1.frequency ++ [(p, 1)] :=
        aset_of_not_mem p 1 c1.frequency hpnot
      refine ⟨keys_nodup_aset p 1 c1.frequency hw1.1, ?_, ?_, ?_⟩
      · -- accounting for the new state
        show c1.total_size + (f.content.length : Int) =
          ((aset p 1 c1.frequency).map
            (fun q => entrySize (aset (get_cache_path p) f.content c1.disk) q.1)).sum
        rw [happ, List.map_append, List.sum_append]
        have hstep : ∀ q ∈ c1.frequency,
            entrySize (aset (get_cache_path p) f.content c1.disk) q.1 =
              entrySize c1.disk q.1 := by
          intro q hq
          have hqk : q.1 ∈ keys c1.frequency := List.mem_map.mpr ⟨q, hq, rfl⟩
          have hqne : q.1 ≠ p := fun he => hpnot (he ▸ hqk)
          have hgne : get_cache_path q.1 ≠ get_cache_path p := by
            intro he
            exact hqne (get_cache_path_injective _ _ he)
          unfold entrySize
          rw [alookup_aset_ne _ _ _ _ hgne]
        rw [sum_map_congr _ _ _ hstep]
        have hself : entrySize (aset (get_cache_path p) f.content c1.disk) p =
            (f.content.length : Int) := by
          unfold entrySize
          rw [alookup_aset_self]
        have hacc := hw1.2.1
        unfold liveSum at hacc
        simp only [List.map_cons, List.map_nil, List.sum_cons, List.sum_nil, hself]
        rw [← hacc]
        ring
      · -- capacity after the loop
        show c1.total_size + (f.content.length : Int) ≤ (c1.max_size : Int)
        rcases hexit with hle | hnil
        · exact hle
        · have hz : liveSum c1 = 0 := by
            unfold liveSum
            rw [hnil]
            rfl
          have ht0 : c1.total_size = 0 := by rw [hw1.2.1, hz]
          rw [ht0, zero_add, hmax1]
          have : f.content.length ≤ c.max_size := by omega
          exact_mod_cast this
      · -- every entry of the new state is live
        intro q hq
        rcases mem_keys_aset q p 1 c1.frequency hq with hqp | hqin
        · subst hqp
          refine ⟨?_, ?_⟩
          · rw [alookup_aset_self]
          · rw [alookup_aset_self]
            rfl
        · have hqne : q ≠ p := fun he => hpnot (he ▸ hqin)
          have hgne : get_cache_path q ≠ get_cache_path p := by
            intro he
            exact hqne (get_cache_path_injective _ _ he)
          obtain ⟨hqa, hqd⟩ := hw1.2.2.2 q hqin
          refine ⟨?_, ?_⟩
          · rw [alookup_aset_ne _ _ _ _ hqne]
            exact hqa
          · rw [alookup_aset_ne _ _ _ _ hgne]
            exact hqd

theorem add_max (c : LFU) (srcfs : List (String × SrcFile)) (p sp : String) :
    (add c srcfs p sp).2.max_size = c.max_size := by
  rcases hsrc : alookup sp srcfs with _ | f
  · rw [add_eq_of_no_source c srcfs p sp hsrc]
  · by_cases hbig : 2 * f.content.length > c.max_size
    · rw [add_eq_of_oversized c srcfs p sp f hsrc hbig]
    · rw [add_eq_ok c srcfs p sp f hsrc hbig]
      exact evictLoop_max c f.content.length

theorem add_alookup_none (c : LFU) (srcfs : List (String × SrcFile))
    (p sp q : String) (hq : alookup q c.frequency = none) (hne : q ≠ p) :
    alookup q (add c srcfs p sp).2.frequency = none := by
  rcases hsrc : alookup sp srcfs with _ | f
  · rw [add_eq_of_no_source c srcfs p sp hsrc]
    exact hq
  · by_cases hbig : 2 * f.content.length > c.max_size
    · rw [add_eq_of_oversized c srcfs p sp f hsrc hbig]
      exact hq
    · rw [add_eq_ok c srcfs p sp f hsrc hbig]
      show alookup q (aset p 1 (evictLoop c f.content.length).frequency) = none
      rw [alookup_aset_ne _ _ _ _ hne]
      exact evictLoop_alookup_none c f.content.length q hq

theorem runAdds_WFState (srcfs : List (String × SrcFile)) :
    ∀ (ops : List (String × String)) (c : LFU), WFState c →
      (∀ q ∈ ops.map Prod.fst, alookup q c.frequency = none) →
      (ops.map Prod.fst).Nodup →
      WFState (runAdds c srcfs ops)
  | [], c, hw, _, _ => hw
  | op :: ops, c, hw, hfresh, hnd => by
    simp only [List.map_cons, List.nodup_cons] at hnd
    have hw' := WFState_add c srcfs op.1 op.2 hw
      (hfresh op.1 (by simp))
    refine runAdds_WFState srcfs ops _ hw' ?_ hnd.2
    intro q hq
    have hqc : alookup q c.frequency = none :=
      hfresh q (by simp only [List.map_cons, List.mem_cons]; exact Or.inr hq)
    have hqne : q ≠ op.1 := by
      intro he
      exact hnd.1 (he ▸ hq)
    exact add_alookup_none c srcfs op.1 op.2 q hqc hqne

theorem runAdds_max (srcfs : List (String × SrcFile)) :
    ∀ (ops : List (String × String)) (c : LFU),
      (runAdds c srcfs ops).max_size = c.max_size
  | [], _ => rfl
  | op :: ops, c => by
    rw [show runAdds c srcfs (op :: ops) =
        runAdds (add c srcfs op.1 op.2).2 srcfs ops from rfl,
      runAdds_max srcfs ops _, add_max]

theorem has_eq_true_of (c : LFU) (p cp : String) (ct : List Nat)
    (hc : alookup p c.cache = some cp) (hd : alookup cp c.disk = some ct) :
    has c p = true := by
  unfold has
  rw [hc]
  show (alookup cp c.disk).isSome = true
  rw [hd]
  rfl

/-- Characterization of `read` on a hit. -/
theorem read_eq_of_hit (c : LFU) (p : String) (len off : Nat) (cp : String)
    (ct : List Nat) (hc : alookup p c.cache = some cp)
    (hd : alookup cp c.disk = some ct) :
    read c p len off =
      (some ((ct.drop off).take len),
        { c with
          frequency := aset p ((alookup p c.frequency).getD 0 + 1) c.frequency }) := by
  have hhas := has_eq_true_of c p cp ct hc hd
  unfold read
  rw [if_pos hhas]
  simp only [hc, hd]

theorem invalidate_eq_of_has_false (c : LFU) (p : String)
    (h : has c p = false) : invalidate c p = c := by
  unfold invalidate
  rw [h]
  simp

/-- Characterization of `invalidate` on a live entry. -/
theorem invalidate_eq_of_hit (c : LFU) (p cp : String) (ct : List Nat)
    (hc : alookup p c.cache = some cp) (hd : alookup cp c.disk = some ct) :
    invalidate c p =
      { max_size := c.max_size
        frequency := adel p c.frequency
        cache := adel p c.cache
        attrs := adel p c.attrs
        cache_map := adel cp c.cache_map
        total_size := c.total_size - ct.length
        disk := adel cp c.disk } := by
  have hhas := has_eq_true_of c p cp ct hc hd
  unfold invalidate
  rw [if_pos hhas]
  simp only [hc, hd]

/-- An attribute snapshot with a given `st_size`, for concrete runs. -/
def mkAttr (size : Nat) : Attr :=
  ⟨0, 0, 0, 0, 0, 0, size, 0⟩

/-- Backing files for the capacity counterexample: 1-byte and 2-byte
sources. -/
def capSrcs : List (String × SrcFile) :=
  [("s1", ⟨[0], mkAttr 1⟩), ("s2", ⟨[0, 0], mkAttr 2⟩)]

/-- The add sequence of the capacity counterexample: re-adding an
already-cached path adds the new copy's size to `total_size` without
subtracting the overwritten copy's size. -/
def capOps : List (String × String) :=
  [("p", "s1"), ("p", "s1"), ("q", "s1"), ("q", "s1"),
   ("r", "s1"), ("r", "s1"), ("x", "s2")]

/-- C1 (counterexample): with capacity 4 and sources of 1 and 2 bytes
(each at most capacity/2 = 2), seven completed `add` calls — all
returning true — drive `total_size` to 5 > 4.  Re-adds of cached paths
inflate the counter past the on-disk total, so the eviction loop can
empty `frequency` while `total_size + size` still exceeds capacity, and
the copy is admitted regardless. -/
theorem C1_capacity_counterexample :
    (∀ pr ∈ capSrcs, 2 * pr.2.content.length ≤ 4) ∧
    runAddsOks (emptyLFU 4) capSrcs capOps =
      [true, true, true, true, true, true, true] ∧
    (runAdds (emptyLFU 4) capSrcs capOps).total_size = 5 ∧
    ¬((runAdds (emptyLFU 4) capSrcs capOps).total_size ≤
        ((runAdds (emptyLFU 4) capSrcs capOps).max_size : Int)) := by
  decide

/-- C1 (amended): for every capacity and every sequence of `add` calls
whose target paths are pairwise distinct (so no call re-adds an
already-cached path), `total_bytes ≤ capacity` holds after every
completed call — instantiate at each prefix of the sequence.  No size
hypothesis is needed: oversized or sourceless adds are rejected with no
state change. -/
theorem C1_capacity_amended (max : Nat) (srcfs : List (String × SrcFile))
    (ops : List (String × String)) (hnodup : (ops.map Prod.fst).Nodup) :
    (runAdds (emptyLFU max) srcfs ops).total_size ≤ (max : Int) := by
  have hfresh : ∀ q ∈ ops.map Prod.fst, alookup q (emptyLFU max).frequency = none :=
    fun q _ => rfl
  have hw := runAdds_WFState srcfs ops (emptyLFU max) (WFState_empty max) hfresh hnodup
  have hb := hw.2.2.1
  rwa [runAdds_max srcfs ops (emptyLFU max)] at hb

/-- Witness for the amended C1: a concrete two-path run into a
capacity-4 cache stays within capacity. -/
theorem C1_capacity_amended_witness :
    (runAdds (emptyLFU 4) capSrcs [("/a", "s1"), ("/b", "s2")]).total_size ≤ (4 : Int) :=
  C1_capacity_amended 4 capSrcs [("/a", "s1"), ("/b", "s2")] (by decide)

/-- C2: on every nonempty, duplicate-free cache state, `_evict` removes
an entry whose `frequency_counter` is minimal — no other cached entry
has a strictly smaller counter — and removes exactly one entry. -/
theorem C2_evict_min_frequency (c : LFU) (hne : c.frequency ≠ [])
    (hnd : (keys c.frequency).Nodup) :
    ∃ pr, evictChoice c.frequency = some pr ∧ pr ∈ c.frequency ∧
      (∀ q ∈ c.frequency, pr.2 ≤ q.2) ∧
      alookup pr.1 (evictOnce c).frequency = none ∧
      (evictOnce c).frequency.length + 1 = c.frequency.length := by
  obtain ⟨pr, hch, hmem, hmin⟩ := evictChoice_spec c.frequency hne
  have hkey : pr.1 ∈ keys c.frequency := List.mem_map.mpr ⟨pr, hmem, rfl⟩
  refine ⟨pr, hch, hmem, hmin, ?_, ?_⟩
  · rw [evictOnce_frequency, hch]
    exact alookup_adel_self pr.1 c.frequency
  · rw [evictOnce_frequency, hch]
    exact adel_length_nodup pr.1 c.frequency hnd hkey

/-- A concrete state for the C2 witness: `/a` at frequency 1, `/b`
bumped to frequency 2 by a read. -/
def c2state : LFU :=
  (read (runAdds (emptyLFU 100) capSrcs [("/a", "s1"), ("/b", "s1")]) "/b" 1 0).2

/-- Witness for C2 at the concrete two-entry state. -/
theorem C2_evict_min_frequency_witness :
    ∃ pr, evictChoice c2state.frequency = some pr ∧ pr ∈ c2state.frequency ∧
      (∀ q ∈ c2state.frequency, pr.2 ≤ q.2) ∧
      alookup pr.1 (evictOnce c2state).frequency = none ∧
      (evictOnce c2state).frequency.length + 1 = c2state.frequency.length :=
  C2_evict_min_frequency c2state (by decide) (by decide)

/-- C4: `add` returns false and leaves the entire cache state unchanged
when the source path does not exist or its size exceeds half of
`capacity_bytes`. -/
theorem C4_add_failure_no_change (c : LFU) (srcfs : List (String × SrcFile))
    (p sp : String)
    (h : alookup sp srcfs = none ∨
      ∃ f, alookup sp srcfs = some f ∧ 2 * f.content.length > c.max_size) :
    add c srcfs p sp = (false, c) := by
  rcases h with h | ⟨f, hsrc, hbig⟩
  · exact add_eq_of_no_source c srcfs p sp h
  · exact add_eq_of_oversized c srcfs p sp f hsrc hbig

/-- A 2000-byte backing file. -/
def bigSrcs : List (String × SrcFile) :=
  [("big", ⟨List.replicate 2000 0, mkAttr 2000⟩)]

/-- Witness for C4: adding a 2000-byte file to an empty 1024-byte cache
returns false with `total_bytes` still 0. -/
theorem C4_add_failure_witness :
    add (emptyLFU 1024) bigSrcs "/a" "big" = (false, emptyLFU 1024) ∧
    (emptyLFU 1024).total_size = 0 :=
  ⟨C4_add_failure_no_change (emptyLFU 1024) bigSrcs "/a" "big"
      (Or.inr ⟨⟨List.replicate 2000 0, mkAttr 2000⟩, rfl, by
        norm_num [List.length_replicate, emptyLFU, initLFU, List.foldl_nil]⟩),
    rfl⟩

/-- C5: reading a cached path increments its frequency counter by
exactly one and returns the slice `s[off .. off+n)` of the cached bytes
(shorter near end-of-file); an offset at or past end-of-file yields an
empty byte string, not an error. -/
theorem C5_read_hit (c : LFU) (p : String) (len off : Nat) (cp : String)
    (ct : List Nat) (f : Nat)
    (hc : alookup p c.cache = some cp) (hd : alookup cp c.disk = some ct)
    (hf : alookup p c.frequency = some f) :
    (read c p len off).1 = some ((ct.drop off).take len) ∧
    alookup p (read c p len off).2.frequency = some (f + 1) ∧
    (ct.length ≤ off → (read c p len off).1 = some []) := by
  rw [read_eq_of_hit c p len off cp ct hc hd]
  refine ⟨rfl, ?_, ?_⟩
  · show alookup p (aset p ((alookup p c.frequency).getD 0 + 1) c.frequency) =
      some (f + 1)
    rw [hf, alookup_aset_self]
    rfl
  · intro hoff
    rw [List.drop_eq_nil_of_le hoff, List.take_nil]

/-- The 12 bytes of `"Test content"`. -/
def testContent : List Nat :=
  [84, 101, 115, 116, 32, 99, 111, 110, 116, 101, 110, 116]

def testSrcs : List (String × SrcFile) :=
  [("src", ⟨testContent, mkAttr 12⟩)]

/-- The cache state right after `add("/a", "Test content")`. -/
def c5state : LFU :=
  (add (emptyLFU 1024) testSrcs "/a" "src").2

/-- Witness for C5: reading the cached 12-byte content at offset 1000
returns empty (with the frequency bumped from 1 to 2), and reading at
offset 0 returns the first 5 bytes byte-for-byte. -/
theorem C5_read_hit_witness :
    (read c5state "/a" 5 1000).1 = some [] ∧
    alookup "/a" (read c5state "/a" 5 1000).2.frequency = some 2 ∧
    (read c5state "/a" 5 0).1 = some (testContent.take 5) :=
  ⟨(C5_read_hit c5state "/a" 5 1000 "cache_/a" testContent 1
      (by decide) (by decide) (by decide)).2.2 (by decide),
   (C5_read_hit c5state "/a" 5 1000 "cache_/a" testContent 1
      (by decide) (by decide) (by decide)).2.1,
   (C5_read_hit c5state "/a" 5 0 "cache_/a" testContent 1
      (by decide) (by decide) (by decide)).1⟩

/-- C6: `invalidate` of a live entry removes it from every dictionary,
deletes its cache file, and decrements `total_bytes` by the file's size,
leaving `has` false; invalidating an absent path is a no-op, and
`invalidate` is idempotent. -/
theorem C6_invalidate_removes (c : LFU) (p : String) :
    (has c p = false → invalidate c p = c) ∧
    (∀ cp ct, alookup p c.cache = some cp → alookup cp c.disk = some ct →
      has (invalidate c p) p = false ∧
      alookup p (invalidate c p).cache = none ∧
      alookup p (invalidate c p).frequency = none ∧
      alookup p (invalidate c p).attrs = none ∧
      alookup cp (invalidate c p).disk = none ∧
      (invalidate c p).total_size = c.total_size - ct.length) ∧
    invalidate (invalidate c p) p = invalidate c p := by
  refine ⟨invalidate_eq_of_has_false c p, ?_, ?_⟩
  · intro cp ct hc hd
    rw [invalidate_eq_of_hit c p cp ct hc hd]
    refine ⟨?_, alookup_adel_self p c.cache, alookup_adel_self p c.frequency,
      alookup_adel_self p c.attrs, alookup_adel_self cp c.disk, rfl⟩
    unfold has
    rw [alookup_adel_self]
  · rcases hca : alookup p c.cache with _ | cp
    · have hf : has c p = false := by
        unfold has
        rw [hca]
      rw [invalidate_eq_of_has_false c p hf]
      exact invalidate_eq_of_has_false c p hf
    · rcases hdd : alookup cp c.disk with _ | ct
      · have hf : has c p = false := by
          unfold has
          rw [hca]
          show (alookup cp c.disk).isSome = false
          rw [hdd]
          rfl
        rw [invalidate_eq_of_has_false c p hf]
        exact invalidate_eq_of_has_false c p hf
      · rw [invalidate_eq_of_hit c p cp ct hca hdd]
        apply invalidate_eq_of_has_false
        unfold has
        rw [alookup_adel_self]

/-- Witness for C6 at the concrete cached state: after
`invalidate("/a")`, `has("/a")` is false and `total_bytes` dropped by
the 12 cached bytes; a second `invalidate` is a no-op. -/
theorem C6_invalidate_removes_witness :
    (has (invalidate c5state "/a") "/a" = false ∧
      alookup "/a" (invalidate c5state "/a").cache = none ∧
      alookup "/a" (invalidate c5state "/a").frequency = none ∧
      alookup "/a" (invalidate c5state "/a").attrs = none ∧
      alookup "cache_/a" (invalidate c5state "/a").disk = none ∧
      (invalidate c5state "/a").total_size = c5state.total_size - 12) ∧
    invalidate (invalidate c5state "/a") "/a" = invalidate c5state "/a" :=
  ⟨by
    have h := (C6_invalidate_removes c5state "/a").2.1 "cache_/a" testContent
      (by decide) (by decide)
    exact ⟨h.1, h.2.1, h.2.2.1, h.2.2.2.1, h.2.2.2.2.1, h.2.2.2.2.2⟩,
   (C6_invalidate_removes c5state "/a").2.2⟩

/-- C10: a `get_attr` hit is decided only by membership in the
in-memory `attrs` map: even when the entry's backing cache file has been
removed from disk (so `has` is false), `get_attr` still increments the
frequency counter and returns the snapshot. -/
theorem C10_get_attr_by_attrs (c : LFU) (p : String) (a : Attr)
    (ha : alookup p c.attrs = some a) (hh : has c p = false) :
    (get_attr c p).1 = some a ∧
    alookup p (get_attr c p).2.frequency =
      some ((alookup p c.frequency).getD 0 + 1) := by
  unfold get_attr
  rw [ha]
  exact ⟨rfl, alookup_aset_self p _ c.frequency⟩

/-- The cached state for `/a` whose backing cache file was removed by
external interference (modelled as deleting the disk entry). -/
def c10state : LFU :=
  { c5state with disk := adel "cache_/a" c5state.disk }

/-- Witness for C10: the snapshot is still served and the frequency
climbs from 1 to 2 although `has` is false. -/
theorem C10_get_attr_by_attrs_witness :
    has c10state "/a" = false ∧
    (get_attr c10state "/a").1 = some (mkAttr 12) ∧
    alookup "/a" (get_attr c10state "/a").2.frequency = some 2 :=
  ⟨by decide,
    (C10_get_attr_by_attrs c10state "/a" (mkAttr 12) (by decide) (by decide)).1,
    (C10_get_attr_by_attrs c10state "/a" (mkAttr 12) (by decide) (by decide)).2⟩

theorem has_elim (c : LFU) (q : String) (h : has c q = true) :
    ∃ cp ct, alookup q c.cache = some cp ∧ alookup cp c.disk = some ct := by
  unfold has at h
  rcases hc : alookup q c.cache with _ | cp
  · rw [hc] at h
    exact absurd h (by simp)
  · rw [hc] at h
    have h2 : (alookup cp c.disk).isSome = true := h
    rcases hd : alookup cp c.disk with _ | ct
    · rw [hd] at h2
      exact absurd h2 (by simp)
    · exact ⟨cp, ct, rfl, hd⟩

/-- The second component of `read`: on a hit the frequency is bumped, on
a miss the state is unchanged. -/
theorem read_snd (c : LFU) (q : String) (len off : Nat) :
    (read c q len off).2 =
      if has c q then
        { c with frequency := aset q ((alookup q c.frequency).getD 0 + 1) c.frequency }
      else c := by
  unfold read
  by_cases h : has c q = true
  · rw [if_pos h, if_pos h]
    rcases hc : alookup q c.cache with _ | cp
    · simp [hc]
    · rcases hd : alookup cp c.disk with _ | ct
      · simp [hc, hd]
      · simp [hc, hd]
  · rw [if_neg h, if_neg h]

/-- The second component of `get_attr`. -/
theorem get_attr_snd (c : LFU) (q : String) :
    (get_attr c q).2 =
      match alookup q c.attrs with
      | some _ =>
        { c with frequency := aset q ((alookup q c.frequency).getD 0 + 1) c.frequency }
      | none => c := by
  unfold get_attr
  rcases ha : alookup q c.attrs with _ | a
  · simp
  · simp

/-- The frequency dictionary after `invalidate` is either unchanged (on
a miss) or has the path deleted (on a hit). -/
theorem invalidate_frequency (c : LFU) (q : String) :
    (invalidate c q).frequency = c.frequency ∨
      (invalidate c q).frequency = adel q c.frequency := by
  by_cases h : has c q = true
  · obtain ⟨cp, ct, hc, hd⟩ := has_elim c q h
    rw [invalidate_eq_of_hit c q cp ct hc hd]
    exact Or.inr rfl
  · rw [invalidate_eq_of_has_false c q (by
      cases hb : has c q
      · rfl
      · exact absurd hb h)]
    exact Or.inl rfl

theorem evictOnce_alookup_some (c : LFU) (p : String) (f : Nat)
    (h : alookup p (evictOnce c).frequency = some f) :
    alookup p c.frequency = some f := by
  rw [evictOnce_frequency] at h
  rcases hch : evictChoice c.frequency with _ | pr
  · rwa [hch] at h
  · rw [hch] at h
    have h2 : alookup p (adel pr.1 c.frequency) = some f := h
    rcases eq_or_ne p pr.1 with he | he
    · rw [he, alookup_adel_self] at h2
      exact Option.noConfusion h2
    · rwa [alookup_adel_ne _ _ _ he] at h2

theorem evictGo_alookup_some (size : Nat) :
    ∀ (n : Nat) (c : LFU) (p : String) (f : Nat),
      alookup p (evictGo size n c).frequency = some f →
      alookup p c.frequency = some f
  | 0, _, _, _, h => h
  | n + 1, c, p, f, h => by
    rw [show evictGo size (n + 1) c =
        (if c.total_size + size > (c.max_size : Int) ∧ c.frequency ≠ [] then
          evictGo size n (evictOnce c)
        else c) from rfl] at h
    by_cases hcond : c.total_size + size > (c.max_size : Int) ∧ c.frequency ≠ []
    · rw [if_pos hcond] at h
      exact evictOnce_alookup_some c p f
        (evictGo_alookup_some size n (evictOnce c) p f h)
    · rwa [if_neg hcond] at h

theorem evictLoop_alookup_some (c : LFU) (size : Nat) (p : String) (f : Nat)
    (h : alookup p (evictLoop c size).frequency = some f) :
    alookup p c.frequency = some f :=
  evictGo_alookup_some size c.frequency.length c p f h

end LFU

/-- One public operation of the cache engine, for stating lifetime
properties over operation sequences. -/
inductive CacheOp where
  | add (p sp : String)
  | read (p : String) (len off : Nat)
  | get_attr (p : String)
  | invalidate (p : String)
  | clear
deriving DecidableEq

/-- Apply one cache operation to a state (dropping the returned value). -/
def stepOp (srcfs : List (String × SrcFile)) (c : LFU) : CacheOp → LFU
  | .add p sp => (LFU.add c srcfs p sp).2
  | .read p len off => (LFU.read c p len off).2
  | .get_attr p => (LFU.get_attr c p).2
  | .invalidate p => LFU.invalidate c p
  | .clear => LFU.clear c

/-- C8 (counterexample): a warm-start-adopted cache entry is created with
frequency 0, not 1, and reaches the value 1 only at its first read —
mid-lifetime, not at creation.  `_load_existing_cache` registers
pre-existing `cache_*` files with `self.frequency[cache_path] = 0`. -/
theorem C8_frequency_counterexample :
    alookup "cache_X" (LFU.initLFU 100 [("cache_X", [7])]).frequency = some 0 ∧
    LFU.has (LFU.initLFU 100 [("cache_X", [7])]) "cache_X" = true ∧
    alookup "cache_X"
      ((LFU.read (LFU.initLFU 100 [("cache_X", [7])]) "cache_X" 1 0).2).frequency =
      some 1 := by
  decide

/-- C8 (amended): over an entry's lifetime the frequency counter never
decreases under any cache operation that is not an `add` of that same
path (a re-`add` destroys the entry and records a fresh one), and an
entry created by a successful `add` starts at frequency 1.  Warm-start
adopted entries start at 0 instead (see the counterexample). -/
theorem C8_frequency_monotone (srcfs : List (String × SrcFile)) (c : LFU)
    (p : String) :
    (∀ (op : CacheOp) (f f2 : Nat), alookup p c.frequency = some f →
      alookup p (stepOp srcfs c op).frequency = some f2 →
      (∀ sp, op ≠ CacheOp.add p sp) → f ≤ f2) ∧
    (∀ sp f1, alookup sp srcfs = some f1 →
      ¬2 * f1.content.length > c.max_size →
      alookup p ((LFU.add c srcfs p sp).2).frequency = some 1) := by
  constructor
  · intro op f f2 hf hf2 hnotadd
    cases op with
    | add q sp =>
      have hqp : q ≠ p := by
        intro he
        exact hnotadd sp (by rw [he])
      rcases hsrc : alookup sp srcfs with _ | f1
      · rw [show stepOp srcfs c (CacheOp.add q sp) = (LFU.add c srcfs q sp).2 from rfl,
          LFU.add_eq_of_no_source c srcfs q sp hsrc] at hf2
        have h3 := Option.some.inj (hf.symm.trans hf2)
        omega
      · by_cases hbig : 2 * f1.content.length > c.max_size
        · rw [show stepOp srcfs c (CacheOp.add q sp) = (LFU.add c srcfs q sp).2 from rfl,
            LFU.add_eq_of_oversized c srcfs q sp f1 hsrc hbig] at hf2
          have h3 : some f = some f2 := hf.symm.trans hf2
          have := Option.some.inj h3
          omega
        · rw [show stepOp srcfs c (CacheOp.add q sp) = (LFU.add c srcfs q sp).2 from rfl,
            LFU.add_eq_ok c srcfs q sp f1 hsrc hbig] at hf2
          have h3 : alookup p
              (aset q 1 (LFU.evictLoop c f1.content.length).frequency) = some f2 := hf2
          rw [alookup_aset_ne _ _ _ _ (Ne.symm hqp)] at h3
          have h4 := LFU.evictLoop_alookup_some c f1.content.length p f2 h3
          have := Option.some.inj (hf.symm.trans h4)
          omega
    | read q len off =>
      have h2 : alookup p (LFU.read c q len off).2.frequency = some f2 := hf2
      rw [LFU.read_snd] at h2
      by_cases h : LFU.has c q = true
      · rw [if_pos h] at h2
        rcases eq_or_ne p q with he | he
        · subst he
          have h3 : alookup p
              (aset p ((alookup p c.frequency).getD 0 + 1) c.frequency) = some f2 := h2
          rw [alookup_aset_self] at h3
          rw [hf] at h3
          simp only [Option.getD_some] at h3
          have := Option.some.inj h3
          omega
        · rw [alookup_aset_ne _ _ _ _ he] at h2
          have := Option.some.inj (hf.symm.trans h2)
          omega
      · rw [if_neg h] at h2
        have := Option.some.inj (hf.symm.trans h2)
        omega
    | get_attr q =>
      have h2 : alookup p (LFU.get_attr c q).2.frequency = some f2 := hf2
      rw [LFU.get_attr_snd] at h2
      rcases ha : alookup q c.attrs with _ | a
      · rw [ha] at h2
        have := Option.some.inj (hf.symm.trans h2)
        omega
      · rw [ha] at h2
        rcases eq_or_ne p q with he | he
        · subst he
          have h3 : alookup p
              (aset p ((alookup p c.frequency).getD 0 + 1) c.frequency) = some f2 := h2
          rw [alookup_aset_self] at h3
          rw [hf] at h3
          simp only [Option.getD_some] at h3
          have := Option.some.inj h3
          omega
        · have h3 : alookup p
              (aset q ((alookup q c.frequency).getD 0 + 1) c.frequency) = some f2 := h2
          rw [alookup_aset_ne _ _ _ _ he] at h3
          have := Option.some.inj (hf.symm.trans h3)
          omega
    | invalidate q =>
      have h2 : alookup p (LFU.invalidate c q).frequency = some f2 := hf2
      rcases LFU.invalidate_frequency c q with heq | heq
      · rw [heq] at h2
        have := Option.some.inj (hf.symm.trans h2)
        omega
      · rw [heq] at h2
        rcases eq_or_ne p q with he | he
        · rw [he, alookup_adel_self] at h2
          exact Option.noConfusion h2
        · rw [alookup_adel_ne _ _ _ he] at h2
          have := Option.some.inj (hf.symm.trans h2)
          omega
    | clear =>
      have h2 : alookup p ([] : List (String × Nat)) = some f2 := hf2
      exact Option.noConfusion h2
  · intro sp f1 hsrc hbig
    rw [LFU.add_eq_ok c srcfs p sp f1 hsrc hbig]
    exact alookup_aset_self p 1 (LFU.evictLoop c f1.content.length).frequency

/-- Witness for the amended C8: a read on the cached `/a` bumps its
counter from 1 to 2 (so 1 ≤ 2), and re-adding `/a` records a fresh entry
at frequency 1. -/
theorem C8_frequency_monotone_witness :
    (1 : Nat) ≤ 2 ∧
    alookup "/a" ((LFU.add LFU.c5state LFU.testSrcs "/a" "src").2).frequency =
      some 1 :=
  ⟨(C8_frequency_monotone LFU.testSrcs LFU.c5state "/a").1
      (CacheOp.read "/a" 1 0) 1 2 (by decide) (by decide)
      (fun sp h => CacheOp.noConfusion h),
    (C8_frequency_monotone LFU.testSrcs LFU.c5state "/a").2 "src"
      ⟨LFU.testContent, LFU.mkAttr 12⟩ rfl (by decide)⟩

/-- The crypto filter (`utils/crypto.py`).  The AES-256-CBC primitives of
the external `Crypto` library are abstracted as function parameters:
only the disabled path is the subject of any claim.  The random IV of
`encrypt` is made an explicit argument. -/
structure Crypto where
  enabled : Bool
  key : List Nat
  aes_cbc_enc : List Nat → List Nat → List Nat → List Nat
  aes_cbc_dec : List Nat → List Nat → List Nat → List Nat

/-- PKCS#7 padding to the 16-byte AES block size
(`Crypto.Util.Padding.pad`). -/
def pad16 (data : List Nat) : List Nat :=
  data ++ List.replicate (16 - data.length % 16) (16 - data.length % 16)

/-- PKCS#7 unpadding (`unpad`): drop as many trailing bytes as the last
byte says.  The invalid-padding exception path (which would return the
original data) is not modelled — unreached by the claims. -/
def unpad16 (data : List Nat) : List Nat :=
  data.take (data.length - data.getLastD 0)

/-- `Crypto.encrypt`: identity when disabled, else IV plus the CBC
ciphertext of the padded data. -/
def Crypto.encrypt (c : Crypto) (iv data : List Nat) : List Nat :=
  if c.enabled = false then data
  else iv ++ c.aes_cbc_enc c.key iv (pad16 data)

/-- `Crypto.decrypt`: identity when disabled, else strip the 16-byte IV
and unpad the CBC decryption of the rest. -/
def Crypto.decrypt (c : Crypto) (data : List Nat) : List Nat :=
  if c.enabled = false then data
  else unpad16 (c.aes_cbc_dec c.key (data.take 16) (data.drop 16))

/-- C9: when encryption is disabled, `encrypt` and `decrypt` are both
identity functions on every byte string. -/
theorem C9_crypto_disabled_identity (c : Crypto) (iv data : List Nat)
    (h : c.enabled = false) :
    c.encrypt iv data = data ∧ c.decrypt data = data := by
  unfold Crypto.encrypt Crypto.decrypt
  rw [if_pos h, if_pos h]
  exact ⟨rfl, rfl⟩

/-- A disabled crypto instance whose abstract cipher is arbitrary. -/
def cryptoOff : Crypto :=
  ⟨false, [], fun _ _ d => d, fun _ _ d => d⟩

/-- Witness for C9 on concrete bytes. -/
theorem C9_crypto_disabled_identity_witness :
    cryptoOff.encrypt [0] [1, 2, 3] = [1, 2, 3] ∧
    cryptoOff.decrypt [1, 2, 3] = [1, 2, 3] :=
  C9_crypto_disabled_identity cryptoOff [0] [1, 2, 3] rfl

/-- State of the `FuseFS` dispatcher (`core/filesystem.py`): the storage
root, the backing store keyed by full path, the LFU cache, and the
handle table (`self.fd` counter plus `open_files`; a live descriptor is
modelled by the backing path it was opened on). -/
structure FS where
  storage_path : String
  backing : List (String × SrcFile)
  cache : LFU
  fd : Nat
  open_files : List (Nat × String)
deriving DecidableEq, Repr

/-- `os.O_RDONLY` is 0 on POSIX platforms — which is why the
dispatcher's read-intent test `flags & os.O_RDONLY` is never nonzero. -/
def O_RDONLY : Nat := 0

/-- `FuseFS._full_path`: strip one leading slash, then
`os.path.join` with the storage root. -/
def full_path (storage p : String) : String :=
  match p.data with
  | '/' :: rest => storage ++ "/" ++ String.mk rest
  | _ => storage ++ "/" ++ p

/-- `FuseFS.open`: on a cache miss the code tests
`flags & os.O_RDONLY` before populating the cache; then it allocates the
next handle.  `os.open` failure and the database access-time update are
not modelled (not exercised by the claims). -/
def fsOpen (st : FS) (path : String) (flags : Nat) : FS × Nat :=
  let fp := full_path st.storage_path path
  let cache1 :=
    if LFU.has st.cache path then st.cache
    else if flags &&& O_RDONLY ≠ 0 then (LFU.add st.cache st.backing path fp).2
    else st.cache
  let fd1 := st.fd + 1
  ({ st with cache := cache1, fd := fd1, open_files := (fd1, fp) :: st.open_files },
    fd1)

/-- `FuseFS.rename`: move the backing file, then invalidate the cache
entry under the old path if cached.  The `os.rename` missing-source
error path and the database rename are not modelled (not exercised by
the claims). -/
def fsRename (st : FS) (old new : String) : FS :=
  let ofp := full_path st.storage_path old
  let nfp := full_path st.storage_path new
  let backing1 :=
    match alookup ofp st.backing with
    | some f => aset nfp f (adel ofp st.backing)
    | none => st.backing
  let cache1 :=
    if LFU.has st.cache old then LFU.invalidate st.cache old else st.cache
  { st with backing := backing1, cache := cache1 }

/-- Overwrite `content` at `offset` with `buf`, zero-filling up to the
offset when it lies past end-of-file (POSIX `r+b` seek-and-write). -/
def writeAt (content : List Nat) (offset : Nat) (buf : List Nat) : List Nat :=
  let pre := content.take offset
  let pre2 := pre ++ List.replicate (offset - pre.length) 0
  pre2 ++ buf ++ content.drop (offset + buf.length)

/-- `FuseFS.write`: opening the backing file `r+b` fails when it does
not exist (surfaced as an IO error); otherwise write the bytes,
invalidate the path's cache entry if cached, and return the byte count.
The database size/mtime/sync notifications are external effects and not
modelled. -/
def fsWrite (st : FS) (path : String) (buf : List Nat) (offset : Nat) :
    Except Unit (FS × Nat) :=
  match alookup (full_path st.storage_path path) st.backing with
  | none => Except.error ()
  | some f =>
    Except.ok
      ({ st with
          backing := aset (full_path st.storage_path path)
            { content := writeAt f.content offset buf
              attr := { f.attr with st_size := (writeAt f.content offset buf).length } }
            st.backing
          cache :=
            if LFU.has st.cache path then LFU.invalidate st.cache path
            else st.cache },
        buf.length)

/-- A dispatcher state with `/a` backed and cached, for the C3
scenario. -/
def c3state : FS :=
  { storage_path := "/st"
    backing := [("/st/a", ⟨LFU.testContent, LFU.mkAttr 12⟩)]
    cache := (LFU.add (LFU.emptyLFU 1024)
      [("/st/a", ⟨LFU.testContent, LFU.mkAttr 12⟩)] "/a" "/st/a").2
    fd := 0
    open_files := [] }

/-- C3: the dispatcher's `open` never populates the cache — for every
state, path and flags, the cache is unchanged, because the read-intent
test `flags & os.O_RDONLY` compares against `O_RDONLY = 0` and is never
truthy.  In particular, after `rename("/a", "/b")`, `has("/a")` is false
and an `open("/b", O_RDONLY)` does NOT trigger a cache population:
`has("/b")` stays false, contradicting the specified behavior. -/
theorem C3_open_never_populates :
    (∀ (st : FS) (p : String) (flags : Nat),
      ((fsOpen st p flags).1).cache = st.cache) ∧
    LFU.has (fsRename c3state "/a" "/b").cache "/a" = false ∧
    LFU.has ((fsOpen (fsRename c3state "/a" "/b") "/b" O_RDONLY).1).cache "/b" =
      false := by
  refine ⟨?_, by decide, by decide⟩
  intro st p flags
  unfold fsOpen
  simp only
  have hz : flags &&& O_RDONLY = 0 := by
    show flags &&& 0 = 0
    simp
  by_cases h : LFU.has st.cache p = true
  · rw [if_pos h]
  · rw [if_neg h, if_neg (by rw [hz]; exact fun hc => hc rfl)]

/-- A dispatcher state with `/a` and `/b` both backed and cached, for
the C7 witness. -/
def c7state : FS :=
  { storage_path := "/st"
    backing := [("/st/a", ⟨LFU.testContent, LFU.mkAttr 12⟩),
                ("/st/b", ⟨[1, 2], LFU.mkAttr 2⟩)]
    cache := (LFU.add
      ((LFU.add (LFU.emptyLFU 1024)
        [("/st/a", ⟨LFU.testContent, LFU.mkAttr 12⟩),
         ("/st/b", ⟨[1, 2], LFU.mkAttr 2⟩)] "/a" "/st/a").2)
      [("/st/a", ⟨LFU.testContent, LFU.mkAttr 12⟩),
       ("/st/b", ⟨[1, 2], LFU.mkAttr 2⟩)] "/b" "/st/b").2
    fd := 0
    open_files := [] }

/-- C7: a successful dispatcher `write` to `p` leaves `has(p)` false and
every other path's cache entry — its `cache`/`frequency`/`attrs`
records and its `has` status — unchanged.  The hypothesis that distinct
paths own distinct cache files holds for every state the cache builds
(the cache file name is an injective hash of the path). -/
theorem C7_write_invalidates_exactly (st : FS) (p : String) (buf : List Nat)
    (off : Nat) (st2 : FS) (n : Nat)
    (hv : (st.cache.cache.map Prod.snd).Nodup)
    (h : fsWrite st p buf off = Except.ok (st2, n)) :
    LFU.has st2.cache p = false ∧
    ∀ q, q ≠ p →
      alookup q st2.cache.cache = alookup q st.cache.cache ∧
      alookup q st2.cache.frequency = alookup q st.cache.frequency ∧
      alookup q st2.cache.attrs = alookup q st.cache.attrs ∧
      LFU.has st2.cache q = LFU.has st.cache q := by
  unfold fsWrite at h
  rcases hb : alookup (full_path st.storage_path p) st.backing with _ | f
  · rw [hb] at h
    exact absurd h (by simp)
  · rw [hb] at h
    have h2 := Except.ok.inj h
    have hst2 : st2 =
        { st with
          backing := aset (full_path st.storage_path p)
            { content := writeAt f.content off buf
              attr := { f.attr with st_size := (writeAt f.content off buf).length } }
            st.backing
          cache :=
            if LFU.has st.cache p then LFU.invalidate st.cache p else st.cache } :=
      (congrArg Prod.fst h2).symm
    subst hst2
    by_cases hc : LFU.has st.cache p = true
    · obtain ⟨cp, ct, hca, hdd⟩ := LFU.has_elim st.cache p hc
      simp only [if_pos hc]
      rw [LFU.invalidate_eq_of_hit st.cache p cp ct hca hdd]
      refine ⟨?_, ?_⟩
      · unfold LFU.has
        rw [alookup_adel_self]
      · intro q hq
        refine ⟨alookup_adel_ne _ _ _ hq, alookup_adel_ne _ _ _ hq,
          alookup_adel_ne _ _ _ hq, ?_⟩
        unfold LFU.has
        rw [alookup_adel_ne _ _ _ hq]
        rcases hq2 : alookup q st.cache.cache with _ | cpq
        · rfl
        · have hcpne : cpq ≠ cp := by
            intro he
            exact hq (values_nodup_inj st.cache.cache q p cp hv (he ▸ hq2) hca)
          show (alookup cpq (adel cp st.cache.disk)).isSome =
            (alookup cpq st.cache.disk).isSome
          rw [alookup_adel_ne _ _ _ hcpne]
    · have hcf : LFU.has st.cache p = false := by
        cases hb2 : LFU.has st.cache p
        · rfl
        · exact absurd hb2 hc
      simp only [if_neg hc]
      exact ⟨hcf, fun q _ => ⟨trivial, trivial, trivial, trivial⟩⟩

/-- Witness for C7: writing to `/a` in the two-entry state invalidates
exactly `/a`; `/b` keeps its entry, frequency and `has` status. -/
theorem C7_write_invalidates_exactly_witness :
    ∃ st2 n, fsWrite c7state "/a" [9] 0 = Except.ok (st2, n) ∧
      LFU.has st2.cache "/a" = false ∧
      alookup "/b" st2.cache.frequency = alookup "/b" c7state.cache.frequency ∧
      LFU.has st2.cache "/b" = LFU.has c7state.cache "/b" := by
  refine ⟨_, _, rfl, ?_, ?_, ?_⟩
  · exact (C7_write_invalidates_exactly c7state "/a" [9] 0 _ _ (by decide) rfl).1
  · exact ((C7_write_invalidates_exactly c7state "/a" [9] 0 _ _ (by decide) rfl).2
      "/b" (by decide)).2.1
  · exact ((C7_write_invalidates_exactly c7state "/a" [9] 0 _ _ (by decide) rfl).2
      "/b" (by decide)).2.2.2

end FuseFS
